import Mathlib

/-!
Verification development for the timetable-to-calendar parser (`main.py`).

The Python source is shallowly embedded:
* dates are modelled as natural numbers counting days from a Monday epoch,
  so `d % 7` is Python's `date.weekday()` (Monday = 0);
* `datetime.time` values are `Time` records (hour, minute);
* Python dicts used as event records become the `Event` structure with
  `Option` fields for keys that may be absent;
* decimal digits are modelled as ASCII digits `'0'..'9'`;
* exceptions become `Except`/`Option` results;
* the external section resolver (`pyvt.Timetable.crn_lookup`) and the
  calendar insert call are injected functions.
-/

namespace VTCal

/-- ASCII decimal digit test, the model of the regex class `\d`. -/
def isDigitC (c : Char) : Bool := decide (48 ≤ c.toNat ∧ c.toNat ≤ 57)

/-- Numeric value of an ASCII digit character. -/
def digitVal (c : Char) : Nat := c.toNat - 48

/-- Value of a string of decimal digits (the model of Python `int`). -/
def digitsVal (l : List Char) : Nat := l.foldl (fun a c => 10 * a + digitVal c) 0

/-- A time of day as produced by `datetime.strptime(...).time()`. -/
structure Time where
  hour : Nat
  minute : Nat
deriving DecidableEq

/-- `time_str.replace(" ", "").upper()` from `parse_time`, as a char list. -/
def normalizeTime (s : String) : List Char :=
  (s.toList.filter (fun c => c ≠ ' ')).map Char.toUpper

/-- The `%p` directive of `strptime`: matches `AM` or `PM` (the input has
already been upper-cased), returns whether it was `PM` and the rest. -/
def parseP : List Char → Option (Bool × List Char)
  | 'A' :: 'M' :: rest => some (false, rest)
  | 'P' :: 'M' :: rest => some (true, rest)
  | _ => none

/-- The `%M` directive of `strptime` (regex `[0-5]\d|\d`): a two-digit
minute `00`–`59`, or failing that a single digit. -/
def parseM : List Char → Option (Nat × List Char)
  | c1 :: c2 :: rest =>
    if isDigitC c1 ∧ digitVal c1 ≤ 5 ∧ isDigitC c2 then
      some (10 * digitVal c1 + digitVal c2, rest)
    else if isDigitC c1 then some (digitVal c1, c2 :: rest)
    else none
  | [c1] => if isDigitC c1 then some (digitVal c1, []) else none
  | [] => none

/-- `%M%p` with the regex backtracking of `strptime`'s compiled pattern:
if the two-digit minute alternative matches but `%p` then fails, the
single-digit alternative is retried. -/
def parseMp : List Char → Option (Nat × Bool × List Char)
  | c1 :: c2 :: rest =>
    if isDigitC c1 ∧ digitVal c1 ≤ 5 ∧ isDigitC c2 then
      match parseP rest with
      | some (pm, r) => some (10 * digitVal c1 + digitVal c2, pm, r)
      | none =>
        match parseP (c2 :: rest) with
        | some (pm, r) => some (digitVal c1, pm, r)
        | none => none
    else if isDigitC c1 then
      match parseP (c2 :: rest) with
      | some (pm, r) => some (digitVal c1, pm, r)
      | none => none
    else none
  | _ => none

/-- CPython's 12-hour to 24-hour adjustment after `%I`/`%p` match. -/
def to24 (h : Nat) (pm : Bool) : Nat :=
  if pm then (if h = 12 then 12 else h + 12) else (if h = 12 then 0 else h)

/-- After the `%I` hour has matched with value `h`: literal `:`,
then `%M%p`, producing the adjusted 24-hour time. -/
def parseAfterHourI (h : Nat) : List Char → Option (Time × List Char)
  | ':' :: rest =>
    match parseMp rest with
    | some (m, pm, r) => some (⟨to24 h pm, m⟩, r)
    | none => none
  | _ => none

/-- The format `"%I:%M%p"`: `%I` is regex `1[0-2]|0[1-9]|[1-9]`, tried in
that order with backtracking into the one-digit alternative. -/
def parseFmtI : List Char → Option (Time × List Char)
  | c1 :: c2 :: rest =>
    let two :=
      if c1 = '1' ∧ 48 ≤ c2.toNat ∧ c2.toNat ≤ 50 then
        parseAfterHourI (10 + digitVal c2) rest
      else if c1 = '0' ∧ 49 ≤ c2.toNat ∧ c2.toNat ≤ 57 then
        parseAfterHourI (digitVal c2) rest
      else none
    match two with
    | some r => some r
    | none =>
      if 49 ≤ c1.toNat ∧ c1.toNat ≤ 57 then parseAfterHourI (digitVal c1) (c2 :: rest)
      else none
  | [c1] =>
    if 49 ≤ c1.toNat ∧ c1.toNat ≤ 57 then parseAfterHourI (digitVal c1) [] else none
  | [] => none

/-- After the `%H` hour has matched with value `h`: literal `:` then `%M`. -/
def parseAfterHourH (h : Nat) : List Char → Option (Time × List Char)
  | ':' :: rest =>
    match parseM rest with
    | some (m, r) => some (⟨h, m⟩, r)
    | none => none
  | _ => none

/-- The format `"%H:%M"`: `%H` is regex `2[0-3]|[0-1]\d|\d`, tried in
that order with backtracking into the one-digit alternative. -/
def parseFmtH : List Char → Option (Time × List Char)
  | c1 :: c2 :: rest =>
    let two :=
      if c1 = '2' ∧ 48 ≤ c2.toNat ∧ c2.toNat ≤ 51 then
        parseAfterHourH (20 + digitVal c2) rest
      else if (48 ≤ c1.toNat ∧ c1.toNat ≤ 49) ∧ isDigitC c2 then
        parseAfterHourH (10 * digitVal c1 + digitVal c2) rest
      else none
    match two with
    | some r => some r
    | none =>
      if isDigitC c1 then parseAfterHourH (digitVal c1) (c2 :: rest) else none
  | [c1] => if isDigitC c1 then parseAfterHourH (digitVal c1) [] else none
  | [] => none

/-- `parse_time` from `main.py`: strip spaces, upper-case, then try
`strptime` with `"%I:%M%p"` and `"%H:%M"` in turn; a format succeeds only
if its regex consumed the whole string; otherwise return `None`. -/
def parse_time (s : String) : Option Time :=
  let cs := normalizeTime s
  match parseFmtI cs with
  | some (t, []) => some t
  | _ =>
    match parseFmtH cs with
    | some (t, []) => some t
    | _ => none

/-- Spec-side description of the time grammar (refinement target), following
§4.3 of the spec: an hour field of one or two digits, a colon, a minute
field of one or two digits, optionally an AM/PM suffix. -/
def ampmSuffix (pm : Bool) : List Char := if pm then ['P', 'M'] else ['A', 'M']

/-- Spec-side 12-hour field: one or two decimal digits with value 1–12. -/
def specHour12 (l : List Char) : Prop :=
  l.all isDigitC = true ∧ 1 ≤ l.length ∧ l.length ≤ 2 ∧
    1 ≤ digitsVal l ∧ digitsVal l ≤ 12

/-- Spec-side 24-hour field: one or two decimal digits with value 0–23. -/
def specHour24 (l : List Char) : Prop :=
  l.all isDigitC = true ∧ 1 ≤ l.length ∧ l.length ≤ 2 ∧ digitsVal l ≤ 23

/-- Spec-side minute field: one or two decimal digits with value 0–59. -/
def specMinute (l : List Char) : Prop :=
  l.all isDigitC = true ∧ 1 ≤ l.length ∧ l.length ≤ 2 ∧ digitsVal l ≤ 59

/-- Spec-side form of an accepted (already space-stripped and upper-cased)
time string, with the time value it denotes: either `H:MM` with an AM/PM
suffix, or 24-hour `HH:MM`. -/
def specTimeForm (cs : List Char) (t : Time) : Prop :=
  (∃ hs ms pm, cs = hs ++ ':' :: (ms ++ ampmSuffix pm) ∧ specHour12 hs ∧
    specMinute ms ∧ t = ⟨to24 (digitsVal hs) pm, digitsVal ms⟩) ∨
  (∃ hs ms, cs = hs ++ ':' :: ms ∧ specHour24 hs ∧ specMinute ms ∧
    t = ⟨digitsVal hs, digitsVal ms⟩)

theorem charToNat_inj {a b : Char} (h : a.toNat = b.toNat) : a = b :=
  Char.ext (UInt32.toNat.inj h)

theorem isDigitC_iff {c : Char} : isDigitC c = true ↔ 48 ≤ c.toNat ∧ c.toNat ≤ 57 := by
  simp [isDigitC]

theorem digitsVal_one (a : Char) : digitsVal [a] = digitVal a := by
  simp [digitsVal]

theorem digitsVal_two (a b : Char) :
    digitsVal [a, b] = 10 * digitVal a + digitVal b := by
  simp [digitsVal]

theorem parseP_eq_some {l r : List Char} {pm : Bool}
    (h : parseP l = some (pm, r)) : l = ampmSuffix pm ++ r := by
  unfold parseP at h
  split at h
  · cases h
    rfl
  · cases h
    rfl
  · cases h

theorem specMinute_one {c1 : Char} (h1 : isDigitC c1 = true) : specMinute [c1] := by
  have := isDigitC_iff.mp h1
  refine ⟨by simp [h1], by simp, by simp, ?_⟩
  rw [digitsVal_one]
  simp only [digitVal]
  omega

theorem specMinute_two {c1 c2 : Char} (h1 : isDigitC c1 = true)
    (h5 : digitVal c1 ≤ 5) (h2 : isDigitC c2 = true) : specMinute [c1, c2] := by
  have := isDigitC_iff.mp h2
  refine ⟨by simp [h1, h2], by simp, by simp, ?_⟩
  rw [digitsVal_two]
  simp only [digitVal] at h5 ⊢
  omega

theorem parseMp_eq_some {l r : List Char} {m : Nat} {pm : Bool}
    (h : parseMp l = some (m, pm, r)) :
    ∃ ms, l = ms ++ ampmSuffix pm ++ r ∧ specMinute ms ∧ m = digitsVal ms := by
  unfold parseMp at h
  split at h
  case _ c1 c2 rest =>
    split at h
    case isTrue hd =>
      obtain ⟨hd1, hd5, hd2⟩ := hd
      split at h
      case _ pm2 r2 hp =>
        cases h
        refine ⟨[c1, c2], ?_, specMinute_two hd1 hd5 hd2, by rw [digitsVal_two]⟩
        rw [parseP_eq_some hp]
        simp
      case _ hp =>
        split at h
        case _ pm2 r2 hp2 =>
          cases h
          refine ⟨[c1], ?_, specMinute_one hd1, by rw [digitsVal_one]⟩
          rw [parseP_eq_some hp2]
          simp
        case _ => cases h
    case isFalse hd =>
      split at h
      case isTrue hd1 =>
        split at h
        case _ pm2 r2 hp2 =>
          cases h
          refine ⟨[c1], ?_, specMinute_one hd1, by rw [digitsVal_one]⟩
          rw [parseP_eq_some hp2]
          simp
        case _ => cases h
      case isFalse => cases h
  case _ => cases h

theorem parseAfterHourI_eq_some {hh : Nat} {l r : List Char} {t : Time}
    (h : parseAfterHourI hh l = some (t, r)) :
    ∃ ms pm, l = ':' :: (ms ++ ampmSuffix pm ++ r) ∧ specMinute ms ∧
      t = ⟨to24 hh pm, digitsVal ms⟩ := by
  unfold parseAfterHourI at h
  split at h
  case _ rest =>
    split at h
    case _ m pm r2 hp =>
      cases h
      obtain ⟨ms, hms, hspec, hval⟩ := parseMp_eq_some hp
      exact ⟨ms, pm, by rw [hms], hspec, by rw [hval]⟩
    case _ => cases h
  case _ => cases h

theorem specHour12_one {c1 : Char} (h : 49 ≤ c1.toNat ∧ c1.toNat ≤ 57) :
    specHour12 [c1] := by
  refine ⟨by simp [isDigitC_iff]; omega, by simp, by simp, ?_, ?_⟩ <;>
    (rw [digitsVal_one]; simp only [digitVal]; omega)

theorem specHour12_two1 {c1 c2 : Char} (h1 : c1 = '1')
    (h : 48 ≤ c2.toNat ∧ c2.toNat ≤ 50) : specHour12 [c1, c2] := by
  subst h1
  have e : digitVal '1' = 1 := by decide
  refine ⟨by simp [isDigitC_iff]; omega, by simp, by simp, ?_, ?_⟩ <;>
    (rw [digitsVal_two, e]; simp only [digitVal]; omega)

theorem specHour12_two0 {c1 c2 : Char} (h1 : c1 = '0')
    (h : 49 ≤ c2.toNat ∧ c2.toNat ≤ 57) : specHour12 [c1, c2] := by
  subst h1
  have e : digitVal '0' = 0 := by decide
  refine ⟨by simp [isDigitC_iff]; omega, by simp, by simp, ?_, ?_⟩ <;>
    (rw [digitsVal_two, e]; simp only [digitVal]; omega)

theorem parseFmtI_eq_some {cs r : List Char} {t : Time}
    (h : parseFmtI cs = some (t, r)) :
    ∃ hs ms pm, cs = hs ++ ':' :: (ms ++ ampmSuffix pm ++ r) ∧ specHour12 hs ∧
      specMinute ms ∧ t = ⟨to24 (digitsVal hs) pm, digitsVal ms⟩ := by
  unfold parseFmtI at h
  split at h
  case _ c1 c2 rest =>
    simp only at h
    split at h
    case _ v hv =>
      -- the two-digit hour alternative succeeded
      split at hv
      case isTrue hd =>
        cases h
        obtain ⟨ms, pm, hl, hmspec, hteq⟩ := parseAfterHourI_eq_some hv
        refine ⟨[c1, c2], ms, pm, by rw [hl]; simp, specHour12_two1 hd.1 hd.2, hmspec, ?_⟩
        rw [hteq, digitsVal_two, hd.1]
        have : digitVal '1' = 1 := by decide
        rw [this]
      case isFalse hd =>
        split at hv
        case isTrue hd0 =>
          cases h
          obtain ⟨ms, pm, hl, hmspec, hteq⟩ := parseAfterHourI_eq_some hv
          refine ⟨[c1, c2], ms, pm, by rw [hl]; simp, specHour12_two0 hd0.1 hd0.2, hmspec, ?_⟩
          rw [hteq, digitsVal_two, hd0.1]
          have : digitVal '0' = 0 := by decide
          rw [this]
          simp
        case isFalse => cases hv
    case _ hv =>
      -- fell through to the one-digit hour alternative
      split at h
      case isTrue hd =>
        obtain ⟨ms, pm, hl, hmspec, hteq⟩ := parseAfterHourI_eq_some h
        exact ⟨[c1], ms, pm, by rw [hl]; simp, specHour12_one hd, hmspec,
          by rw [hteq, digitsVal_one]⟩
      case isFalse => cases h
  case _ c1 =>
    split at h
    case isTrue hd =>
      obtain ⟨ms, pm, hl, _, _⟩ := parseAfterHourI_eq_some h
      cases hl
    case isFalse => cases h
  case _ => cases h

theorem parseM_eq_some {l r : List Char} {m : Nat}
    (h : parseM l = some (m, r)) :
    ∃ ms, l = ms ++ r ∧ specMinute ms ∧ m = digitsVal ms := by
  unfold parseM at h
  split at h
  case _ c1 c2 rest =>
    split at h
    case isTrue hd =>
      obtain ⟨hd1, hd5, hd2⟩ := hd
      cases h
      exact ⟨[c1, c2], by simp, specMinute_two hd1 hd5 hd2, by rw [digitsVal_two]⟩
    case isFalse =>
      split at h
      case isTrue hd1 =>
        cases h
        exact ⟨[c1], by simp, specMinute_one hd1, by rw [digitsVal_one]⟩
      case isFalse => cases h
  case _ c1 =>
    split at h
    case isTrue hd1 =>
      cases h
      exact ⟨[c1], by simp, specMinute_one hd1, by rw [digitsVal_one]⟩
    case isFalse => cases h
  case _ => cases h

theorem parseAfterHourH_eq_some {hh : Nat} {l r : List Char} {t : Time}
    (h : parseAfterHourH hh l = some (t, r)) :
    ∃ ms, l = ':' :: (ms ++ r) ∧ specMinute ms ∧ t = ⟨hh, digitsVal ms⟩ := by
  unfold parseAfterHourH at h
  split at h
  case _ rest =>
    split at h
    case _ m r2 hp =>
      cases h
      obtain ⟨ms, hms, hspec, hval⟩ := parseM_eq_some hp
      exact ⟨ms, by rw [hms], hspec, by rw [hval]⟩
    case _ => cases h
  case _ => cases h

theorem specHour24_one {c1 : Char} (h : isDigitC c1 = true) : specHour24 [c1] := by
  have := isDigitC_iff.mp h
  refine ⟨by simp [h], by simp, by simp, ?_⟩
  rw [digitsVal_one]
  simp only [digitVal]
  omega

theorem specHour24_two2 {c1 c2 : Char} (h1 : c1 = '2')
    (h : 48 ≤ c2.toNat ∧ c2.toNat ≤ 51) : specHour24 [c1, c2] := by
  subst h1
  have e : digitVal '2' = 2 := by decide
  refine ⟨by simp [isDigitC_iff]; omega, by simp, by simp, ?_⟩
  rw [digitsVal_two, e]
  simp only [digitVal]
  omega

theorem specHour24_two01 {c1 c2 : Char} (h1 : 48 ≤ c1.toNat ∧ c1.toNat ≤ 49)
    (h2 : isDigitC c2 = true) : specHour24 [c1, c2] := by
  have := isDigitC_iff.mp h2
  refine ⟨by simp [isDigitC_iff]; omega, by simp, by simp, ?_⟩
  rw [digitsVal_two]
  simp only [digitVal]
  omega

theorem parseFmtH_eq_some {cs r : List Char} {t : Time}
    (h : parseFmtH cs = some (t, r)) :
    ∃ hs ms, cs = hs ++ ':' :: (ms ++ r) ∧ specHour24 hs ∧ specMinute ms ∧
      t = ⟨digitsVal hs, digitsVal ms⟩ := by
  unfold parseFmtH at h
  split at h
  case _ c1 c2 rest =>
    simp only at h
    split at h
    case _ v hv =>
      split at hv
      case isTrue hd =>
        cases h
        obtain ⟨ms, hl, hmspec, hteq⟩ := parseAfterHourH_eq_some hv
        refine ⟨[c1, c2], ms, by rw [hl]; simp, specHour24_two2 hd.1 hd.2, hmspec, ?_⟩
        rw [hteq, digitsVal_two, hd.1]
        have e : digitVal '2' = 2 := by decide
        rw [e]
      case isFalse hd =>
        split at hv
        case isTrue hd0 =>
          cases h
          obtain ⟨ms, hl, hmspec, hteq⟩ := parseAfterHourH_eq_some hv
          exact ⟨[c1, c2], ms, by rw [hl]; simp, specHour24_two01 hd0.1 hd0.2, hmspec,
            by rw [hteq, digitsVal_two]⟩
        case isFalse => cases hv
    case _ hv =>
      split at h
      case isTrue hd =>
        obtain ⟨ms, hl, hmspec, hteq⟩ := parseAfterHourH_eq_some h
        exact ⟨[c1], ms, by rw [hl]; simp, specHour24_one hd, hmspec,
          by rw [hteq, digitsVal_one]⟩
      case isFalse => cases h
  case _ c1 =>
    split at h
    case isTrue hd =>
      obtain ⟨ms, hl, _, _⟩ := parseAfterHourH_eq_some h
      cases hl
    case isFalse => cases h
  case _ => cases h

theorem list_len12 {l : List Char} (h1 : 1 ≤ l.length) (h2 : l.length ≤ 2) :
    (∃ a, l = [a]) ∨ (∃ a b, l = [a, b]) := by
  match l with
  | [a] => exact Or.inl ⟨a, rfl⟩
  | [a, b] => exact Or.inr ⟨a, b, rfl⟩
  | [] => simp at h1
  | a :: b :: c :: t => simp at h2

theorem isDigitC_A : isDigitC 'A' = false := by decide

theorem isDigitC_P : isDigitC 'P' = false := by decide

theorem colon_toNat : (':').toNat = 58 := by decide

theorem parseMp_complete (r : List Char) (pm : Bool) {ms : List Char}
    (h : specMinute ms) :
    parseMp (ms ++ ampmSuffix pm ++ r) = some (digitsVal ms, pm, r) := by
  obtain ⟨hall, h1, h2, h59⟩ := h
  rcases list_len12 h1 h2 with ⟨a, rfl⟩ | ⟨a, b, rfl⟩
  · simp only [List.all_cons, List.all_nil, Bool.and_true] at hall
    cases pm <;>
      simp [ampmSuffix, parseMp, parseP, hall, isDigitC_A, isDigitC_P, digitsVal_one]
  · simp only [List.all_cons, List.all_nil, Bool.and_true, Bool.and_eq_true] at hall
    obtain ⟨ha, hb⟩ := hall
    have h5 : digitVal a ≤ 5 := by
      rw [digitsVal_two] at h59
      have := isDigitC_iff.mp hb
      simp only [digitVal] at h59 ⊢
      omega
    cases pm <;>
      simp [ampmSuffix, parseMp, parseP, ha, hb, h5, digitsVal_two]

theorem parseAfterHourI_complete (hh : Nat) (r : List Char) (pm : Bool)
    {ms : List Char} (h : specMinute ms) :
    parseAfterHourI hh (':' :: (ms ++ ampmSuffix pm ++ r)) =
      some (⟨to24 hh pm, digitsVal ms⟩, r) := by
  have hmp := parseMp_complete r pm h
  rw [List.append_assoc] at hmp
  simp [parseAfterHourI, hmp]

theorem parseFmtI_complete (r : List Char) (pm : Bool) {hs ms : List Char}
    (hh : specHour12 hs) (hm : specMinute ms) :
    parseFmtI (hs ++ ':' :: (ms ++ ampmSuffix pm ++ r)) =
      some (⟨to24 (digitsVal hs) pm, digitsVal ms⟩, r) := by
  obtain ⟨hall, h1, h2, hlo, hhi⟩ := hh
  rcases list_len12 h1 h2 with ⟨a, rfl⟩ | ⟨a, b, rfl⟩
  · simp only [List.all_cons, List.all_nil, Bool.and_true] at hall
    have ha := isDigitC_iff.mp hall
    rw [digitsVal_one] at hlo hhi ⊢
    have ha49 : 49 ≤ a.toNat ∧ a.toNat ≤ 57 := by
      simp only [digitVal] at hlo
      omega
    have hcolon1 : ¬(a = '1' ∧ 48 ≤ (':').toNat ∧ (':').toNat ≤ 50) := by
      rw [colon_toNat]
      rintro ⟨-, -, hc⟩
      omega
    have hcolon2 : ¬(a = '0' ∧ 49 ≤ (':').toNat ∧ (':').toNat ≤ 57) := by
      rw [colon_toNat]
      rintro ⟨-, -, hc⟩
      omega
    simp only [List.cons_append, List.nil_append, parseFmtI]
    rw [if_neg hcolon1, if_neg hcolon2, if_pos ha49]
    exact parseAfterHourI_complete (digitVal a) r pm hm
  · simp only [List.all_cons, List.all_nil, Bool.and_true, Bool.and_eq_true] at hall
    obtain ⟨ha, hb⟩ := hall
    have ha' := isDigitC_iff.mp ha
    have hb' := isDigitC_iff.mp hb
    rw [digitsVal_two] at hlo hhi ⊢
    simp only [List.cons_append, List.nil_append, parseFmtI]
    by_cases hda : digitVal a = 1
    · have ha1 : a = '1' := by
        apply charToNat_inj
        simp only [digitVal] at hda
        rw [show ('1').toNat = 49 from by decide]
        omega
      have hb50 : 48 ≤ b.toNat ∧ b.toNat ≤ 50 := by
        simp only [digitVal] at hda hhi
        omega
      rw [if_pos ⟨ha1, hb50⟩]
      have := parseAfterHourI_complete (10 + digitVal b) r pm hm
      rw [this]
      rw [hda]
    · have hda0 : digitVal a = 0 := by
        simp only [digitVal] at hda hlo hhi ⊢
        omega
      have ha0 : a = '0' := by
        apply charToNat_inj
        simp only [digitVal] at hda0
        rw [show ('0').toNat = 48 from by decide]
        omega
      have hne1 : ¬(a = '1' ∧ 48 ≤ b.toNat ∧ b.toNat ≤ 50) := by
        rintro ⟨he, -⟩
        rw [ha0] at he
        exact absurd he (by decide)
      have hb19 : 49 ≤ b.toNat ∧ b.toNat ≤ 57 := by
        simp only [digitVal] at hda0 hlo
        omega
      rw [if_neg hne1, if_pos ⟨ha0, hb19⟩]
      have := parseAfterHourI_complete (digitVal b) r pm hm
      rw [this]
      rw [hda0]
      simp

theorem parseM_complete {ms : List Char} (h : specMinute ms) :
    parseM ms = some (digitsVal ms, []) := by
  obtain ⟨hall, h1, h2, h59⟩ := h
  rcases list_len12 h1 h2 with ⟨a, rfl⟩ | ⟨a, b, rfl⟩
  · simp only [List.all_cons, List.all_nil, Bool.and_true] at hall
    simp [parseM, hall, digitsVal_one]
  · simp only [List.all_cons, List.all_nil, Bool.and_true, Bool.and_eq_true] at hall
    obtain ⟨ha, hb⟩ := hall
    have h5 : digitVal a ≤ 5 := by
      rw [digitsVal_two] at h59
      have := isDigitC_iff.mp hb
      simp only [digitVal] at h59 ⊢
      omega
    simp [parseM, ha, hb, h5, digitsVal_two]

theorem parseAfterHourH_complete (hh : Nat) {ms : List Char} (h : specMinute ms) :
    parseAfterHourH hh (':' :: ms) = some (⟨hh, digitsVal ms⟩, []) := by
  simp [parseAfterHourH, parseM_complete h]

theorem parseFmtH_complete {hs ms : List Char}
    (hh : specHour24 hs) (hm : specMinute ms) :
    parseFmtH (hs ++ ':' :: ms) = some (⟨digitsVal hs, digitsVal ms⟩, []) := by
  obtain ⟨hall, h1, h2, hhi⟩ := hh
  rcases list_len12 h1 h2 with ⟨a, rfl⟩ | ⟨a, b, rfl⟩
  · simp only [List.all_cons, List.all_nil, Bool.and_true] at hall
    rw [digitsVal_one]
    have hcolon1 : ¬(a = '2' ∧ 48 ≤ (':').toNat ∧ (':').toNat ≤ 51) := by
      rw [colon_toNat]
      rintro ⟨-, -, hc⟩
      omega
    have hcolon2 : ¬((48 ≤ a.toNat ∧ a.toNat ≤ 49) ∧ isDigitC ':' = true) := by
      rintro ⟨-, hc⟩
      exact absurd hc (by decide)
    simp only [List.cons_append, List.nil_append, parseFmtH]
    rw [if_neg hcolon1, if_neg hcolon2, if_pos hall]
    exact parseAfterHourH_complete (digitVal a) hm
  · simp only [List.all_cons, List.all_nil, Bool.and_true, Bool.and_eq_true] at hall
    obtain ⟨ha, hb⟩ := hall
    have ha' := isDigitC_iff.mp ha
    have hb' := isDigitC_iff.mp hb
    rw [digitsVal_two] at hhi ⊢
    simp only [List.cons_append, List.nil_append, parseFmtH]
    by_cases hda : digitVal a = 2
    · have ha2 : a = '2' := by
        apply charToNat_inj
        simp only [digitVal] at hda
        rw [show ('2').toNat = 50 from by decide]
        omega
      have hb51 : 48 ≤ b.toNat ∧ b.toNat ≤ 51 := by
        simp only [digitVal] at hda hhi
        omega
      rw [if_pos ⟨ha2, hb51⟩]
      have := parseAfterHourH_complete (20 + digitVal b) hm
      rw [this]
      rw [hda]
    · have hda1 : digitVal a ≤ 1 := by
        simp only [digitVal] at hda hhi ⊢
        omega
      have hne2 : ¬(a = '2' ∧ 48 ≤ b.toNat ∧ b.toNat ≤ 51) := by
        rintro ⟨he, -⟩
        subst he
        simp only [digitVal] at hda
        exact hda (by decide)
      have ha01 : 48 ≤ a.toNat ∧ a.toNat ≤ 49 := by
        simp only [digitVal] at hda1
        omega
      rw [if_neg hne2, if_pos ⟨ha01, hb⟩]
      have := parseAfterHourH_complete (10 * digitVal a + digitVal b) hm
      rw [this]

theorem parseP_none_of_digits {l : List Char} (h : l.all isDigitC = true) :
    parseP l = none := by
  unfold parseP
  split
  · simp [isDigitC_A] at h
  · simp [isDigitC_P] at h
  · rfl

theorem parseMp_none_of_digits {ms : List Char} (hall : ms.all isDigitC = true)
    (hlen : ms.length ≤ 2) : parseMp ms = none := by
  match ms with
  | [] => rfl
  | [a] => rfl
  | [a, b] =>
    have hpb : parseP [b] = none := parseP_none_of_digits (by
      simp only [List.all_cons, List.all_nil, Bool.and_true, Bool.and_eq_true] at hall ⊢
      exact hall.2)
    simp only [parseMp]
    split
    · rw [show parseP [] = none from rfl, hpb]
    · split
      · rw [hpb]
      · rfl
  | a :: b :: c :: t => simp at hlen

theorem parseAfterHourI_none_of_ne {hh : Nat} {b : Char} {l : List Char}
    (hb : b ≠ ':') : parseAfterHourI hh (b :: l) = none := by
  unfold parseAfterHourI
  split
  case _ rest heq =>
    cases heq
    exact absurd rfl hb
  case _ => rfl

theorem parseFmtI_none_of_digits {hs ms : List Char}
    (hh : specHour24 hs) (hmall : ms.all isDigitC = true) (hmlen : ms.length ≤ 2) :
    parseFmtI (hs ++ ':' :: ms) = none := by
  obtain ⟨hall, h1, h2, hhi⟩ := hh
  have hmp : parseMp ms = none := parseMp_none_of_digits hmall hmlen
  have haI : ∀ k, parseAfterHourI k (':' :: ms) = none := fun k => by
    simp [parseAfterHourI, hmp]
  rcases list_len12 h1 h2 with ⟨a, rfl⟩ | ⟨a, b, rfl⟩
  · simp only [List.cons_append, List.nil_append, parseFmtI]
    have hcolon1 : ¬(a = '1' ∧ 48 ≤ (':').toNat ∧ (':').toNat ≤ 50) := by
      rw [colon_toNat]
      rintro ⟨-, -, hc⟩
      omega
    have hcolon2 : ¬(a = '0' ∧ 49 ≤ (':').toNat ∧ (':').toNat ≤ 57) := by
      rw [colon_toNat]
      rintro ⟨-, -, hc⟩
      omega
    rw [if_neg hcolon1, if_neg hcolon2]
    by_cases hc : 49 ≤ a.toNat ∧ a.toNat ≤ 57
    · rw [if_pos hc]
      exact haI _
    · rw [if_neg hc]
  · simp only [List.all_cons, List.all_nil, Bool.and_true, Bool.and_eq_true] at hall
    have hbd := isDigitC_iff.mp hall.2
    have hbne : b ≠ ':' := by
      intro he
      subst he
      rw [colon_toNat] at hbd
      omega
    simp only [List.cons_append, List.nil_append, parseFmtI]
    have e1 : (if a = '1' ∧ 48 ≤ b.toNat ∧ b.toNat ≤ 50 then
        parseAfterHourI (10 + digitVal b) (':' :: ms)
      else if a = '0' ∧ 49 ≤ b.toNat ∧ b.toNat ≤ 57 then
        parseAfterHourI (digitVal b) (':' :: ms)
      else none) = none := by
      split
      · exact haI _
      · split
        · exact haI _
        · rfl
    rw [e1]
    by_cases hc : 49 ≤ a.toNat ∧ a.toNat ≤ 57
    · rw [if_pos hc]
      exact parseAfterHourI_none_of_ne hbne
    · rw [if_neg hc]

theorem parse_time_iff (s : String) (t : Time) :
    parse_time s = some t ↔ specTimeForm (normalizeTime s) t := by
  constructor
  · intro h
    simp only [parse_time] at h
    split at h
    case _ t2 heq =>
      cases h
      obtain ⟨hs, ms, pm, hl, hhsp, hmsp, hteq⟩ := parseFmtI_eq_some heq
      exact Or.inl ⟨hs, ms, pm, by rw [hl]; simp, hhsp, hmsp, hteq⟩
    case _ hne =>
      split at h
      case _ t2 heq2 =>
        cases h
        obtain ⟨hs, ms, hl, hhsp, hmsp, hteq⟩ := parseFmtH_eq_some heq2
        exact Or.inr ⟨hs, ms, by rw [hl]; simp, hhsp, hmsp, hteq⟩
      case _ => cases h
  · intro h
    rcases h with ⟨hs, ms, pm, hcs, hhsp, hmsp, hteq⟩ | ⟨hs, ms, hcs, hhsp, hmsp, hteq⟩
    · have hfi : parseFmtI (normalizeTime s) =
          some (⟨to24 (digitsVal hs) pm, digitsVal ms⟩, []) := by
        rw [hcs]
        have := parseFmtI_complete [] pm hhsp hmsp
        rw [List.append_nil] at this
        exact this
      simp only [parse_time, hfi]
      rw [hteq]
    · have hfi : parseFmtI (normalizeTime s) = none := by
        rw [hcs]
        exact parseFmtI_none_of_digits hhsp hmsp.1 hmsp.2.2.1
      have hfh : parseFmtH (normalizeTime s) =
          some (⟨digitsVal hs, digitsVal ms⟩, []) := by
        rw [hcs]
        exact parseFmtH_complete hhsp hmsp
      simp only [parse_time, hfi, hfh]
      rw [hteq]

/-- C5: `parse_time` is a total function (it cannot raise); it succeeds with
the correct time-of-day exactly on strings that, after stripping internal
spaces and upper-casing, are `H:MM` with an AM/PM suffix or 24-hour `HH:MM`,
and returns `none` on every other string; in particular `"9:00AM"` and
`"14:30"` succeed and `"garbage"` gives `none`. -/
theorem claim_C5_parse_time :
    (∀ s t, parse_time s = some t ↔ specTimeForm (normalizeTime s) t) ∧
    parse_time "9:00AM" = some ⟨9, 0⟩ ∧
    parse_time "14:30" = some ⟨14, 30⟩ ∧
    parse_time "garbage" = none :=
  ⟨parse_time_iff, by decide, by decide, by decide⟩

/-- Witness for C5: the characterization applied at the concrete input
`"9:00AM"`, whose normalized form decomposes as `9` `:` `00` `AM`. -/
theorem claim_C5_parse_time_witness : parse_time "9:00AM" = some ⟨9, 0⟩ := by
  apply (claim_C5_parse_time.1 "9:00AM" ⟨9, 0⟩).mpr
  apply Or.inl
  refine ⟨['9'], ['0', '0'], false, by decide, ?_, ?_, by decide⟩
  · unfold specHour12
    decide
  · unfold specMinute
    decide

/-! ### Weekday resolution (`get_next_weekday_date`) -/

/-- The `days_of_week` list from `get_next_weekday_date`. -/
def days_of_week : List String :=
  ["monday", "tuesday", "wednesday", "thursday", "friday", "saturday", "sunday"]

/-- ASCII lower-casing, the model of Python `str.lower()` on the ASCII day
names involved (written out so it reduces by kernel evaluation). -/
def strLower (s : String) : String := String.mk (s.toList.map Char.toLower)

/-- Python `list.index` wrapped in try/except: `none` models the caught
`ValueError`. -/
def listIndex (x : String) : List String → Option Nat
  | [] => none
  | y :: ys => if y = x then some 0 else (listIndex x ys).map (· + 1)

/-- `get_next_weekday_date` from `main.py`.  The source reads the reference
date from `datetime.now().date()`; it is modelled as the explicit `today`
parameter (days since a Monday epoch, so `today % 7` is `today.weekday()`).
Python's `%` on a positive modulus is `Int.emod`, which is nonnegative. -/
def get_next_weekday_date (day_name : String) (today : Nat) : Nat :=
  match listIndex (strLower day_name) days_of_week with
  | none => today
  | some idx =>
    let days_ahead : Int := ((idx : Int) - ((today % 7 : Nat) : Int) + 7) % 7
    let adjusted : Int := if days_ahead = 0 then 7 else days_ahead
    today + adjusted.toNat

example : get_next_weekday_date "Wednesday" 0 = 2 := by decide
example : get_next_weekday_date "Monday" 0 = 7 := by decide
example : get_next_weekday_date "sunday" 5 = 6 := by decide
example : get_next_weekday_date "Blursday" 5 = 5 := by decide

theorem listIndex_some_lt {x : String} :
    ∀ {l : List String} {i : Nat}, listIndex x l = some i → i < l.length := by
  intro l
  induction l with
  | nil => intro i h; cases h
  | cons y ys ih =>
    intro i h
    unfold listIndex at h
    split at h
    · cases h
      simp
    · simp only [Option.map_eq_some'] at h
      obtain ⟨j, hj, rfl⟩ := h
      have := ih hj
      simp
      omega

/-- C2: for a known weekday name the result is strictly 1–7 days after the
reference date, lands on the named weekday, and is exactly `today + 7` when
the name is the reference date's own weekday; an unknown name returns the
reference date unchanged. -/
theorem claim_C2_get_next_weekday_date (day_name : String) (today : Nat) :
    (∀ i, listIndex (strLower day_name) days_of_week = some i →
      1 ≤ get_next_weekday_date day_name today - today ∧
      get_next_weekday_date day_name today - today ≤ 7 ∧
      get_next_weekday_date day_name today % 7 = i ∧
      (i = today % 7 → get_next_weekday_date day_name today = today + 7)) ∧
    (listIndex (strLower day_name) days_of_week = none →
      get_next_weekday_date day_name today = today) := by
  constructor
  · intro i h
    have hi : i < 7 := by
      have := listIndex_some_lt h
      simpa [days_of_week] using this
    have hw : today % 7 < 7 := Nat.mod_lt _ (by omega)
    unfold get_next_weekday_date
    rw [h]
    simp only
    omega
  · intro h
    unfold get_next_weekday_date
    rw [h]

/-- Witness for C2: `next_weekday_date("Wednesday", Monday)` is Monday + 2
and `next_weekday_date("Monday", Monday)` is Monday + 7, derived from the
claim theorem at `today = 0` (a Monday). -/
theorem claim_C2_get_next_weekday_date_witness :
    get_next_weekday_date "Wednesday" 0 = 2 ∧
    get_next_weekday_date "Monday" 0 = 7 := by
  constructor
  · have h := (claim_C2_get_next_weekday_date "Wednesday" 0).1 2 (by decide)
    omega
  · have h := (claim_C2_get_next_weekday_date "Monday" 0).1 0 (by decide)
    exact h.2.2.2 (by decide)

/-! ### Identifier extraction (`re.findall(r'(\d{5})', text)`) -/

/-- One scanning step of `re.findall(r'(\d{5})', text)`: at each position,
if the next 5 characters are decimal digits, emit them and resume after
them (matches do not overlap); otherwise advance one character.  The fuel
argument (always instantiated with the list length) makes the recursion
structural so that concrete inputs evaluate by kernel reduction. -/
def findallAux : Nat → List Char → List (List Char)
  | 0, _ => []
  | _ + 1, [] => []
  | fuel + 1, c :: rest =>
    let w := (c :: rest).take 5
    if w.length = 5 ∧ w.all isDigitC = true then
      w :: findallAux fuel ((c :: rest).drop 5)
    else findallAux fuel rest

/-- `re.findall(r'(\d{5})', text)` on a char list. -/
def findall5 (cs : List Char) : List (List Char) := findallAux cs.length cs

/-- The Identifier Extractor of `parse_timetable_text` (line 105). -/
def extractCRNs (text : String) : List (List Char) := findall5 text.toList

/-- Greedy split of a list into consecutive 5-element blocks, dropping the
remainder: the blocks `re.findall` takes out of one digit run. -/
def chunk5 : List Char → List (List Char)
  | a :: b :: c :: d :: e :: rest => [a, b, c, d, e] :: chunk5 rest
  | _ => []

/-- Maximal runs of consecutive decimal digits of a string, in order
(spec-side notion for C1), with the same fuel pattern. -/
def maximalRunsAux : Nat → List Char → List (List Char)
  | 0, _ => []
  | _ + 1, [] => []
  | fuel + 1, c :: rest =>
    if isDigitC c then
      (c :: rest.takeWhile isDigitC) :: maximalRunsAux fuel (rest.dropWhile isDigitC)
    else maximalRunsAux fuel rest

/-- Maximal digit runs of a char list. -/
def maximalRuns (cs : List Char) : List (List Char) := maximalRunsAux cs.length cs

example : extractCRNs "83538 MWF 9:00" = [['8', '3', '5', '3', '8']] := by decide
example : (extractCRNs "0123456789").length = 2 := by decide
example : extractCRNs "123456" = [['1', '2', '3', '4', '5']] := by decide
example : maximalRuns "12345 1234567".toList =
  [['1', '2', '3', '4', '5'], ['1', '2', '3', '4', '5', '6', '7']] := by decide

theorem length_dropWhile_le (p : Char → Bool) (l : List Char) :
    (l.dropWhile p).length ≤ l.length := by
  induction l with
  | nil => simp
  | cons c rest ih =>
    rw [List.dropWhile_cons]
    split
    · exact Nat.le_succ_of_le ih
    · simp

theorem findallAux_fuel :
    ∀ f1 f2 cs, cs.length ≤ f1 → cs.length ≤ f2 →
      findallAux f1 cs = findallAux f2 cs := by
  intro f1
  induction f1 with
  | zero =>
    intro f2 cs h1 h2
    have : cs = [] := by
      cases cs
      · rfl
      · simp at h1
    subst this
    cases f2 <;> rfl
  | succ f ih =>
    intro f2 cs h1 h2
    match cs, f2 with
    | [], f2 => cases f2 <;> rfl
    | c :: rest, 0 => simp at h2
    | c :: rest, g + 1 =>
      simp only [List.length_cons] at h1 h2
      simp only [findallAux]
      split
      · rename_i hcond
        have h5 : 5 ≤ rest.length + 1 := by
          have := hcond.1
          by_contra hlt
          push_neg at hlt
          rw [List.length_take, List.length_cons] at this
          omega
        rw [ih g ((c :: rest).drop 5)
          (by simp only [List.length_drop, List.length_cons]; omega)
          (by simp only [List.length_drop, List.length_cons]; omega)]
      · exact ih g rest (by omega) (by omega)

theorem findall5_eq_aux {f : Nat} {cs : List Char} (h : cs.length ≤ f) :
    findallAux f cs = findall5 cs :=
  findallAux_fuel f cs.length cs h (Nat.le_refl _)

theorem findall5_nil : findall5 [] = [] := rfl

theorem findall5_cons_nomatch {c : Char} {cs : List Char}
    (h : ¬(((c :: cs).take 5).length = 5 ∧ ((c :: cs).take 5).all isDigitC = true)) :
    findall5 (c :: cs) = findall5 cs := by
  show findallAux (cs.length + 1) (c :: cs) = _
  simp only [findallAux]
  rw [if_neg h]
  exact findall5_eq_aux (Nat.le_refl _)

theorem findall5_cons_match {cs : List Char}
    (h5 : (cs.take 5).length = 5) (hdig : (cs.take 5).all isDigitC = true) :
    findall5 cs = cs.take 5 :: findall5 (cs.drop 5) := by
  have hlen : 5 ≤ cs.length := by
    rw [List.length_take] at h5
    omega
  match cs, hlen with
  | c :: rest, _ =>
    show findallAux (rest.length + 1) (c :: rest) = _
    simp only [findallAux]
    rw [if_pos ⟨h5, hdig⟩]
    rw [findall5_eq_aux (f := rest.length)
      (by simp only [List.length_drop, List.length_cons] at hlen ⊢; omega)]

/-- The list does not begin with a decimal digit (boundary of a digit run). -/
def headNotDigit : List Char → Prop
  | [] => True
  | c :: _ => isDigitC c = false

theorem findall5_cons_nondigit {c : Char} {cs : List Char}
    (h : isDigitC c = false) : findall5 (c :: cs) = findall5 cs := by
  apply findall5_cons_nomatch
  rintro ⟨-, hall⟩
  rw [List.take_succ_cons, List.all_cons, h] at hall
  simp at hall

theorem findall5_small_prefix :
    ∀ (ds rest : List Char), ds.all isDigitC = true → ds.length ≤ 4 →
      headNotDigit rest → findall5 (ds ++ rest) = findall5 rest := by
  intro ds
  induction ds with
  | nil => intro rest _ _ _; rfl
  | cons d ds2 ih =>
    intro rest hall hlen hhead
    simp only [List.all_cons, Bool.and_eq_true] at hall
    have step : findall5 (d :: (ds2 ++ rest)) = findall5 (ds2 ++ rest) := by
      apply findall5_cons_nomatch
      rintro ⟨h5, hdig⟩
      match rest, hhead with
      | [], _ =>
        rw [List.append_nil, List.length_take] at h5
        simp only [List.length_cons] at h5 hlen
        omega
      | c :: cs2, hc =>
        -- the window reaches the non-digit character `c`
        have hmem : c ∈ (d :: (ds2 ++ c :: cs2)).take 5 := by
          have hds2 : ds2.length ≤ 3 := by
            simp only [List.length_cons] at hlen
            omega
          rw [List.take_succ_cons]
          have : (ds2 ++ c :: cs2).take 4 = ds2 ++ (c :: cs2).take (4 - ds2.length) := by
            rw [List.take_append_eq_append_take, List.take_of_length_le (by omega)]
          rw [this]
          have h1 : 1 ≤ 4 - ds2.length := by omega
          have : c ∈ (c :: cs2).take (4 - ds2.length) := by
            match k : 4 - ds2.length, h1 with
            | j + 1, _ => simp [List.take_succ_cons]
          exact List.mem_cons_of_mem d (List.mem_append_right ds2 this)
        rw [List.all_eq_true] at hdig
        have := hdig c hmem
        rw [hc] at this
        cases this
    rw [List.cons_append]
    rw [step]
    exact ih rest hall.2 (by simp only [List.length_cons] at hlen; omega) hhead

theorem chunk5_short {l : List Char} (h : l.length ≤ 4) : chunk5 l = [] := by
  match l with
  | [] => rfl
  | [a] => rfl
  | [a, b] => rfl
  | [a, b, c] => rfl
  | [a, b, c, d] => rfl
  | a :: b :: c :: d :: e :: t => simp at h

theorem chunk5_long {l : List Char} (h : 5 ≤ l.length) :
    chunk5 l = l.take 5 :: chunk5 (l.drop 5) := by
  match l with
  | a :: b :: c :: d :: e :: t => rfl
  | [] | [a] | [a, b] | [a, b, c] | [a, b, c, d] => simp at h

theorem findall5_run :
    ∀ (n : Nat) (ds rest : List Char), ds.length = n → ds.all isDigitC = true →
      headNotDigit rest →
      findall5 (ds ++ rest) = chunk5 ds ++ findall5 rest := by
  intro n
  induction n using Nat.strong_induction_on with
  | _ n ih =>
    intro ds rest hn hall hhead
    by_cases h5 : 5 ≤ ds.length
    · have htk : ((ds ++ rest).take 5) = ds.take 5 := by
        rw [List.take_append_eq_append_take]
        have : 5 - ds.length = 0 := by omega
        rw [this, List.take_zero, List.append_nil]
      have htklen : ((ds ++ rest).take 5).length = 5 := by
        rw [htk, List.length_take]
        omega
      have htkall : ((ds ++ rest).take 5).all isDigitC = true := by
        rw [htk, List.all_eq_true] at *
        intro x hx
        exact hall x (List.mem_of_mem_take hx)
      rw [findall5_cons_match htklen htkall, htk]
      have hdrop : (ds ++ rest).drop 5 = ds.drop 5 ++ rest := by
        rw [List.drop_append_eq_append_drop]
        have : 5 - ds.length = 0 := by omega
        rw [this, List.drop_zero]
      rw [hdrop]
      have hrec := ih (ds.drop 5).length (by rw [List.length_drop]; omega)
        (ds.drop 5) rest rfl
        (by rw [List.all_eq_true] at *; intro x hx; exact hall x (List.mem_of_mem_drop hx))
        hhead
      rw [hrec, chunk5_long h5]
      simp
    · push_neg at h5
      rw [chunk5_short (by omega), List.nil_append]
      exact findall5_small_prefix ds rest hall (by omega) hhead

theorem maximalRunsAux_fuel :
    ∀ f1 f2 cs, cs.length ≤ f1 → cs.length ≤ f2 →
      maximalRunsAux f1 cs = maximalRunsAux f2 cs := by
  intro f1
  induction f1 with
  | zero =>
    intro f2 cs h1 h2
    have : cs = [] := by
      cases cs
      · rfl
      · simp at h1
    subst this
    cases f2 <;> rfl
  | succ f ih =>
    intro f2 cs h1 h2
    match cs, f2 with
    | [], f2 => cases f2 <;> rfl
    | c :: rest, 0 => simp at h2
    | c :: rest, g + 1 =>
      simp only [List.length_cons] at h1 h2
      simp only [maximalRunsAux]
      split
      · rw [ih g (rest.dropWhile isDigitC)
          (by have := length_dropWhile_le isDigitC rest; omega)
          (by have := length_dropWhile_le isDigitC rest; omega)]
      · exact ih g rest (by omega) (by omega)

theorem maximalRuns_eq_aux {f : Nat} {cs : List Char} (h : cs.length ≤ f) :
    maximalRunsAux f cs = maximalRuns cs :=
  maximalRunsAux_fuel f cs.length cs h (Nat.le_refl _)

theorem maximalRuns_nil : maximalRuns [] = [] := rfl

theorem maximalRuns_cons_nondigit {c : Char} {cs : List Char}
    (h : isDigitC c = false) : maximalRuns (c :: cs) = maximalRuns cs := by
  show maximalRunsAux (cs.length + 1) (c :: cs) = _
  simp only [maximalRunsAux]
  rw [if_neg (by simp [h])]
  exact maximalRuns_eq_aux (Nat.le_refl _)

theorem maximalRuns_cons_digit {c : Char} {cs : List Char}
    (h : isDigitC c = true) :
    maximalRuns (c :: cs) =
      (c :: cs.takeWhile isDigitC) :: maximalRuns (cs.dropWhile isDigitC) := by
  show maximalRunsAux (cs.length + 1) (c :: cs) = _
  simp only [maximalRunsAux]
  rw [if_pos h]
  rw [maximalRuns_eq_aux (f := cs.length) (length_dropWhile_le isDigitC cs)]

theorem headNotDigit_dropWhile (cs : List Char) :
    headNotDigit (cs.dropWhile isDigitC) := by
  have := List.head?_dropWhile_not isDigitC cs
  match hd : cs.dropWhile isDigitC with
  | [] => trivial
  | c :: t =>
    rw [hd] at this
    simp only [List.head?_cons] at this
    exact this

/-- `findall(r'\d{5}')` chops every maximal digit run greedily into
disjoint 5-digit blocks, in order. -/
theorem findall5_eq_runs_chunks :
    ∀ cs, findall5 cs = (maximalRuns cs).flatMap chunk5 := by
  suffices h : ∀ n cs, cs.length = n →
      findall5 cs = (maximalRuns cs).flatMap chunk5 by
    intro cs
    exact h cs.length cs rfl
  intro n
  induction n using Nat.strong_induction_on with
  | _ n ih =>
    intro cs hn
    match cs with
    | [] => rfl
    | c :: rest =>
      by_cases hc : isDigitC c = true
      · have hsplit : c :: rest =
            (c :: rest.takeWhile isDigitC) ++ rest.dropWhile isDigitC := by
          rw [List.cons_append, List.takeWhile_append_dropWhile]
        have hall : (c :: rest.takeWhile isDigitC).all isDigitC = true := by
          rw [List.all_cons, hc]
          simp [List.all_takeWhile]
        have hrest2 : (rest.dropWhile isDigitC).length < n := by
          have := length_dropWhile_le isDigitC rest
          simp only [List.length_cons] at hn
          omega
        calc findall5 (c :: rest)
            = findall5 ((c :: rest.takeWhile isDigitC) ++ rest.dropWhile isDigitC) := by
              rw [← hsplit]
          _ = chunk5 (c :: rest.takeWhile isDigitC) ++
                findall5 (rest.dropWhile isDigitC) :=
              findall5_run _ _ _ rfl hall (headNotDigit_dropWhile rest)
          _ = chunk5 (c :: rest.takeWhile isDigitC) ++
                (maximalRuns (rest.dropWhile isDigitC)).flatMap chunk5 := by
              rw [ih _ hrest2 _ rfl]
          _ = (maximalRuns (c :: rest)).flatMap chunk5 := by
              rw [maximalRuns_cons_digit hc, List.flatMap_cons]
      · have hc2 : isDigitC c = false := by
          cases h : isDigitC c
          · rfl
          · exact absurd h hc
        rw [findall5_cons_nondigit hc2, maximalRuns_cons_nondigit hc2]
        apply ih rest.length _ rest rfl
        simp only [List.length_cons] at hn
        omega

theorem chunk5_length : ∀ l : List Char, (chunk5 l).length = l.length / 5 := by
  suffices h : ∀ n (l : List Char), l.length = n →
      (chunk5 l).length = l.length / 5 by
    intro l
    exact h l.length l rfl
  intro n
  induction n using Nat.strong_induction_on with
  | _ n ih =>
    intro l hn
    by_cases h5 : 5 ≤ l.length
    · rw [chunk5_long h5]
      simp only [List.length_cons]
      rw [ih (l.drop 5).length (by rw [List.length_drop]; omega) _ rfl]
      rw [List.length_drop]
      omega
    · rw [chunk5_short (by omega)]
      simp
      omega

theorem chunk5_mem : ∀ {l w : List Char}, w ∈ chunk5 l →
    w.length = 5 ∧ ∀ x ∈ w, x ∈ l := by
  suffices h : ∀ n (l w : List Char), l.length = n → w ∈ chunk5 l →
      w.length = 5 ∧ ∀ x ∈ w, x ∈ l by
    intro l w hw
    exact h l.length l w rfl hw
  intro n
  induction n using Nat.strong_induction_on with
  | _ n ih =>
    intro l w hn hw
    match l with
    | a :: b :: c :: d :: e :: t =>
      simp only [chunk5, List.mem_cons] at hw
      rcases hw with rfl | hw
      · refine ⟨rfl, ?_⟩
        intro x hx
        simp only [List.mem_cons] at hx ⊢
        tauto
      · have := ih t.length (by simp only [List.length_cons] at hn; omega) t w rfl hw
        refine ⟨this.1, fun x hx => ?_⟩
        have := this.2 x hx
        simp only [List.mem_cons]
        tauto
    | [] => cases hw
    | [a] => cases hw
    | [a, b] => cases hw
    | [a, b, c] => cases hw
    | [a, b, c, d] => cases hw

theorem maximalRuns_all_digits :
    ∀ cs, ∀ r ∈ maximalRuns cs, r.all isDigitC = true := by
  suffices h : ∀ n cs, cs.length = n → ∀ r ∈ maximalRuns cs,
      r.all isDigitC = true by
    intro cs
    exact h cs.length cs rfl
  intro n
  induction n using Nat.strong_induction_on with
  | _ n ih =>
    intro cs hn r hr
    match cs with
    | [] => cases hr
    | c :: rest =>
      by_cases hc : isDigitC c = true
      · rw [maximalRuns_cons_digit hc] at hr
        simp only [List.mem_cons] at hr
        rcases hr with rfl | hr
        · rw [List.all_cons, hc]
          simp [List.all_takeWhile]
        · exact ih (rest.dropWhile isDigitC).length
            (by have := length_dropWhile_le isDigitC rest
                simp only [List.length_cons] at hn; omega) _ rfl r hr
      · have hc2 : isDigitC c = false := by
          cases h : isDigitC c
          · rfl
          · exact absurd h hc
        rw [maximalRuns_cons_nondigit hc2] at hr
        exact ih rest.length (by simp only [List.length_cons] at hn; omega) _ rfl r hr

theorem chunk5_of_len5 {r : List Char} (h : r.length = 5) : chunk5 r = [r] := by
  match r with
  | [a, b, c, d, e] => rfl
  | [] | [x] | [x, y] | [x, y, z] | [x, y, z, w] => simp at h
  | a :: b :: c :: d :: e :: f :: t => simp at h

/-- Counterexample for C1 as stated: on `"123456"` the extractor emits one
identifier (`"12345"`), but the input has no maximal run of exactly 5
digits (its single maximal digit run has length 6), so the output is not
the list of maximal 5-digit runs and the lengths differ (1 versus 0). -/
theorem claim_C1_counterexample :
    extractCRNs "123456" = [['1', '2', '3', '4', '5']] ∧
    (maximalRuns "123456".toList).filter (fun r => r.length = 5) = [] ∧
    extractCRNs "123456" ≠
      (maximalRuns "123456".toList).filter (fun r => r.length = 5) := by
  refine ⟨by decide, by decide, ?_⟩
  decide

/-- C1 (amended): the Identifier Extractor emits, for each maximal digit run
in first-occurrence order, that run's greedy disjoint 5-digit blocks — a run
of length `L` contributes `⌊L/5⌋` identifiers (so a maximal run of exactly 5
digits contributes itself, a 10-digit run contributes 2, and a run shorter
than 5 contributes none); every emitted identifier is 5 decimal digits, and
the output length is the sum of `⌊L/5⌋` over the maximal digit runs. -/
theorem claim_C1_extractor (text : String) :
    extractCRNs text = (maximalRuns text.toList).flatMap chunk5 ∧
    (extractCRNs text).length =
      ((maximalRuns text.toList).map (fun r => r.length / 5)).sum ∧
    (∀ r ∈ maximalRuns text.toList, r.length = 5 → chunk5 r = [r]) ∧
    (∀ w ∈ extractCRNs text, w.length = 5 ∧ w.all isDigitC = true) := by
  have hmain : extractCRNs text = (maximalRuns text.toList).flatMap chunk5 :=
    findall5_eq_runs_chunks text.toList
  refine ⟨hmain, ?_, fun r _ hr5 => chunk5_of_len5 hr5, ?_⟩
  · rw [hmain, List.length_flatMap]
    congr 1
    apply List.map_congr_left
    intro r _
    exact chunk5_length r
  · intro w hw
    rw [hmain, List.mem_flatMap] at hw
    obtain ⟨r, hrmem, hwr⟩ := hw
    obtain ⟨hlen, hsub⟩ := chunk5_mem hwr
    refine ⟨hlen, ?_⟩
    rw [List.all_eq_true]
    intro x hx
    have hrall := maximalRuns_all_digits text.toList r hrmem
    rw [List.all_eq_true] at hrall
    exact hrall x (hsub x hx)

/-- Witness for C1 (amended): the spec's own example shapes — a 5-digit run
is kept whole, a 10-digit run yields exactly 2 identifiers. -/
theorem claim_C1_extractor_witness :
    extractCRNs "83538 0123456789 123" =
      [['8', '3', '5', '3', '8'], ['0', '1', '2', '3', '4'], ['5', '6', '7', '8', '9']] ∧
    (extractCRNs "83538 0123456789 123").length = 3 := by
  have h := (claim_C1_extractor "83538 0123456789 123").1
  constructor
  · rw [h]
    decide
  · rw [h]
    decide

/-! ### Event records and deduplication (`create_events_in_calendar`) -/

/-- A naive `datetime` value: a date (days since a Monday epoch) combined
with a time of day, as produced by `datetime.combine`. -/
structure DateTime where
  date : Nat
  time : Time
deriving DecidableEq

/-- An event dict as passed between the parser, the frontend and
`/create-events`; `Option` fields model keys that may be absent
(`dict.get` returning `None`). -/
structure Event where
  subject : Option String
  location : Option String
  day : Option String
  start_datetime : Option DateTime
  end_datetime : Option DateTime
  needs_days_input : Bool
  start_time_str : Option String
  end_time_str : Option String
deriving DecidableEq

/-- Python `str()` of a datetime, an injective rendering. -/
def dtStr (dt : DateTime) : String :=
  toString dt.date ++ " " ++ toString dt.time.hour ++ ":" ++ toString dt.time.minute

/-- `str(event.get('start_datetime'))`: `str(None)` is `"None"`. -/
def optDtStr : Option DateTime → String
  | none => "None"
  | some dt => dtStr dt

/-- Python `a or b` on an optional string: `None` and `""` are falsy. -/
def pyOrStr (s : Option String) (alt : String) : String :=
  match s with
  | some str => if str = "" then alt else str
  | none => alt

/-- The dict key used by `/create-events` (lines 270–276). -/
abbrev DedupKey := Option String × Option String × String × String × Option String

/-- `(subject, day, start_time_str or str(start_datetime), end_time_str or
str(end_datetime), location)`. -/
def dedupKey (e : Event) : DedupKey :=
  (e.subject, e.day,
   pyOrStr e.start_time_str (optDtStr e.start_datetime),
   pyOrStr e.end_time_str (optDtStr e.end_datetime),
   e.location)

/-- The `unique_events` dict loop: keep an event only if its key was not
seen before; insertion order of first occurrences is preserved (Python
dicts iterate in insertion order). -/
def dedupAux (seen : List DedupKey) : List Event → List Event
  | [] => []
  | e :: rest =>
    if dedupKey e ∈ seen then dedupAux seen rest
    else e :: dedupAux (dedupKey e :: seen) rest

/-- The deduplication step of `create_events_in_calendar`. -/
def dedup (events : List Event) : List Event := dedupAux [] events

theorem dedupAux_sublist : ∀ (seen : List DedupKey) (l : List Event),
    (dedupAux seen l).Sublist l := by
  intro seen l
  induction l generalizing seen with
  | nil => simp [dedupAux]
  | cons e rest ih =>
    simp only [dedupAux]
    split
    · exact (ih seen).cons e
    · exact (ih (dedupKey e :: seen)).cons₂ e

theorem dedupAux_key_not_seen : ∀ (seen : List DedupKey) (l : List Event)
    (e : Event), e ∈ dedupAux seen l → dedupKey e ∉ seen := by
  intro seen l
  induction l generalizing seen with
  | nil => intro e he; cases he
  | cons x rest ih =>
    intro e he
    simp only [dedupAux] at he
    split at he
    · exact ih seen e he
    · rcases List.mem_cons.mp he with rfl | hmem
      · assumption
      · have := ih (dedupKey x :: seen) e hmem
        intro hc
        exact this (List.mem_cons_of_mem _ hc)

theorem dedupAux_keys_nodup : ∀ (seen : List DedupKey) (l : List Event),
    ((dedupAux seen l).map dedupKey).Nodup := by
  intro seen l
  induction l generalizing seen with
  | nil => simp [dedupAux]
  | cons e rest ih =>
    simp only [dedupAux]
    split
    · exact ih seen
    · rw [List.map_cons, List.nodup_cons]
      refine ⟨?_, ih (dedupKey e :: seen)⟩
      rw [List.mem_map]
      rintro ⟨y, hy, hk⟩
      have := dedupAux_key_not_seen _ _ _ hy
      rw [hk] at this
      exact this (List.mem_cons_self _ _)

theorem dedupAux_find : ∀ (seen : List DedupKey) (l : List Event) (e : Event),
    e ∈ dedupAux seen l →
      l.find? (fun x => dedupKey x == dedupKey e) = some e := by
  intro seen l
  induction l generalizing seen with
  | nil => intro e he; cases he
  | cons x rest ih =>
    intro e he
    have hnotseen := dedupAux_key_not_seen seen (x :: rest) e he
    simp only [dedupAux] at he
    split at he
    · rename_i hxseen
      have hne : dedupKey x ≠ dedupKey e := by
        intro hc
        rw [hc] at hxseen
        exact hnotseen hxseen
      rw [List.find?_cons_of_neg _ (by simp [hne])]
      exact ih seen e he
    · rcases List.mem_cons.mp he with rfl | hmem
      · rw [List.find?_cons_of_pos _ (by simp)]
      · have hkey := dedupAux_key_not_seen _ _ _ hmem
        have hne : dedupKey x ≠ dedupKey e := by
          intro hc
          rw [hc] at hkey
          exact hkey (List.mem_cons_self _ _)
        rw [List.find?_cons_of_neg _ (by simp [hne])]
        exact ih (dedupKey x :: seen) e hmem

theorem dedupAux_coverage : ∀ (seen : List DedupKey) (l : List Event)
    (x : Event), x ∈ l → dedupKey x ∈ seen ∨
      ∃ e ∈ dedupAux seen l, dedupKey e = dedupKey x := by
  intro seen l
  induction l generalizing seen with
  | nil => intro x hx; cases hx
  | cons y rest ih =>
    intro x hx
    simp only [dedupAux]
    rcases List.mem_cons.mp hx with rfl | hmem
    · split
      · rename_i hseen
        exact Or.inl hseen
      · exact Or.inr ⟨x, by simp, rfl⟩
    · split
      · rename_i hseen
        exact ih seen x hmem
      · rcases ih (dedupKey y :: seen) x hmem with hin | ⟨e, he, hk⟩
        · rcases List.mem_cons.mp hin with heq | hin2
          · exact Or.inr ⟨y, by simp, heq.symm⟩
          · exact Or.inl hin2
        · exact Or.inr ⟨e, List.mem_cons_of_mem _ he, hk⟩

theorem dedupAux_of_nodup : ∀ (seen : List DedupKey) (l : List Event),
    (∀ x ∈ l, dedupKey x ∉ seen) → (l.map dedupKey).Nodup →
      dedupAux seen l = l := by
  intro seen l
  induction l generalizing seen with
  | nil => intro _ _; rfl
  | cons e rest ih =>
    intro hsep hnd
    simp only [dedupAux]
    rw [List.map_cons, List.nodup_cons] at hnd
    rw [if_neg (hsep e (List.mem_cons_self _ _))]
    congr 1
    apply ih
    · intro x hx
      rw [List.mem_cons]
      rintro (hk | hk)
      · exact hnd.1 (by rw [← hk]; exact List.mem_map_of_mem _ hx)
      · exact hsep x (List.mem_cons_of_mem _ hx) hk
    · exact hnd.2

/-- C3: deduplication keeps, in first-seen order, exactly the first
occurrence of each distinct `DedupKey` (subject, day, start representation,
end representation, location): the result is a subsequence of the input
with pairwise distinct keys, each survivor is the first input element
bearing its key, no key is dropped entirely, the result never grows, and
the operation is idempotent. -/
theorem claim_C3_dedup (X : List Event) :
    dedup (dedup X) = dedup X ∧
    (dedup X).length ≤ X.length ∧
    (dedup X).Sublist X ∧
    ((dedup X).map dedupKey).Nodup ∧
    (∀ e ∈ dedup X, X.find? (fun x => dedupKey x == dedupKey e) = some e) ∧
    (∀ x ∈ X, ∃ e ∈ dedup X, dedupKey e = dedupKey x) := by
  refine ⟨?_, (dedupAux_sublist [] X).length_le, dedupAux_sublist [] X,
    dedupAux_keys_nodup [] X, fun e he => dedupAux_find [] X e he, fun x hx => ?_⟩
  · exact dedupAux_of_nodup [] (dedup X) (fun x _ => List.not_mem_nil _)
      (dedupAux_keys_nodup [] X)
  · rcases dedupAux_coverage [] X x hx with hin | h
    · cases hin
    · exact h

/-- A concrete occurrence used by witnesses. -/
def evMon : Event :=
  { subject := some "CS1114 Intro", location := some "McBryde 100",
    day := some "Monday", start_datetime := some ⟨7, ⟨9, 0⟩⟩,
    end_datetime := some ⟨7, ⟨9, 50⟩⟩, needs_days_input := false,
    start_time_str := none, end_time_str := none }

/-- A second concrete occurrence with a different key. -/
def evWed : Event :=
  { subject := some "CS1114 Intro", location := some "McBryde 100",
    day := some "Wednesday", start_datetime := some ⟨9, ⟨9, 0⟩⟩,
    end_datetime := some ⟨9, ⟨9, 50⟩⟩, needs_days_input := false,
    start_time_str := none, end_time_str := none }

/-- Witness for C3: on a concrete list with a duplicate, deduplication is
idempotent, does not grow the list, and keeps the first occurrence. -/
theorem claim_C3_dedup_witness :
    dedup (dedup [evMon, evMon, evWed]) = dedup [evMon, evMon, evWed] ∧
    (dedup [evMon, evMon, evWed]).length ≤ 3 ∧
    [evMon, evMon, evWed].find? (fun x => dedupKey x == dedupKey evMon) =
      some evMon := by
  have h := claim_C3_dedup [evMon, evMon, evWed]
  refine ⟨h.1, h.2.1, ?_⟩
  apply h.2.2.2.2.1 evMon
  decide

/-! ### Section resolution and schedule normalization
(`parse_timetable_text`) -/

/-- A `pyvt` section record (the fields `parse_timetable_text` reads). -/
structure Section where
  code : String
  name : String
  location : String
  days : String
  start_time : String
  end_time : String
deriving DecidableEq

/-- The external resolver `vt.crn_lookup(crn, open_only=False)`: it may
raise (`Except.error`), return a falsy result, or return a section. -/
def Resolver : Type := String → Except String (Option Section)

/-- Substring containment, the model of Python `'ARR' in section.days`. -/
def listIsInfix (needle : List Char) : List Char → Bool
  | [] => needle.isEmpty
  | c :: t => needle.isPrefixOf (c :: t) || listIsInfix needle t

/-- The `day_map` dict of `parse_timetable_text`. -/
def day_map : Char → Option String
  | 'M' => some "Monday"
  | 'T' => some "Tuesday"
  | 'W' => some "Wednesday"
  | 'R' => some "Thursday"
  | 'F' => some "Friday"
  | 'S' => some "Saturday"
  | 'U' => some "Sunday"
  | _ => none

/-- The degenerate occurrence emitted for an arranged (`ARR`) section. -/
def arrEvent (sec : Section) : Event :=
  { subject := some (sec.code ++ " " ++ sec.name), location := some sec.location,
    day := none, start_datetime := none, end_datetime := none,
    needs_days_input := true,
    start_time_str := some sec.start_time, end_time_str := some sec.end_time }

/-- The body of the per-day-letter loop: a concrete occurrence if the letter
is a known day and both section times parse, otherwise nothing. -/
def dayEvent (today : Nat) (sec : Section) (d : Char) : Option Event :=
  match day_map d with
  | none => none
  | some dname =>
    let event_date := get_next_weekday_date dname today
    match parse_time sec.start_time, parse_time sec.end_time with
    | some st, some et =>
      some { subject := some (sec.code ++ " " ++ sec.name),
             location := some sec.location, day := some dname,
             start_datetime := some ⟨event_date, st⟩,
             end_datetime := some ⟨event_date, et⟩,
             needs_days_input := false,
             start_time_str := none, end_time_str := none }
    | _, _ => none

/-- `events.append(...)` guarded by an optional result. -/
def appendOpt {β : Type} (acc : List β) (e : Option β) : List β :=
  match e with
  | some x => acc ++ [x]
  | none => acc

/-- Normalization of one resolved section (lines 115–138): arranged sections
yield one degenerate occurrence; otherwise the day letters are scanned in
order, appending an occurrence per letter when possible. -/
def processSection (today : Nat) (sec : Section) : List Event :=
  if listIsInfix "ARR".toList sec.days.toList then [arrEvent sec]
  else
    sec.days.toList.foldl (fun acc d => appendOpt acc (dayEvent today sec d)) []

/-- Processing of one extracted identifier, with the per-iteration
`try/except` of the source: a resolver exception or falsy section
contributes nothing. -/
def processCrn (today : Nat) (resolver : Resolver) (crn : String) : List Event :=
  match resolver crn with
  | Except.error _ => []
  | Except.ok none => []
  | Except.ok (some sec) => processSection today sec

/-- `parse_timetable_text`: extract candidate identifiers, then process each
in order, accumulating occurrences. -/
def parse_timetable_text (today : Nat) (resolver : Resolver) (text : String) :
    List Event :=
  (extractCRNs text).foldl
    (fun acc crn => acc ++ processCrn today resolver (String.mk crn)) []

theorem foldl_append_flatten {α β : Type} (f : α → List β) :
    ∀ (l : List α) (acc : List β),
      l.foldl (fun a x => a ++ f x) acc = acc ++ (l.map f).flatten := by
  intro l
  induction l with
  | nil => intro acc; simp
  | cons x t ih =>
    intro acc
    simp only [List.foldl_cons, List.map_cons, List.flatten_cons]
    rw [ih]
    simp [List.append_assoc]

theorem foldl_appendOpt {α β : Type} (g : α → Option β) :
    ∀ (l : List α) (acc : List β),
      l.foldl (fun a x => appendOpt a (g x)) acc = acc ++ l.filterMap g := by
  intro l
  induction l with
  | nil => intro acc; simp
  | cons x t ih =>
    intro acc
    simp only [List.foldl_cons, List.filterMap_cons]
    match hg : g x with
    | some e =>
      rw [show appendOpt acc (some e) = acc ++ [e] from rfl, ih]
      simp [List.append_assoc]
    | none =>
      rw [show appendOpt acc none = acc from rfl, ih]

/-- C6: a section whose days field is the arranged marker `"ARR"` yields
exactly one degenerate occurrence, which carries the raw time strings, has
`needs_days_input` set, and has no computed date or day. -/
theorem claim_C6_arranged (today : Nat) (sec : Section) (h : sec.days = "ARR") :
    processSection today sec = [arrEvent sec] ∧
    (arrEvent sec).needs_days_input = true ∧
    (arrEvent sec).start_datetime = none ∧
    (arrEvent sec).end_datetime = none ∧
    (arrEvent sec).day = none ∧
    (arrEvent sec).start_time_str = some sec.start_time ∧
    (arrEvent sec).end_time_str = some sec.end_time := by
  refine ⟨?_, rfl, rfl, rfl, rfl, rfl, rfl⟩
  unfold processSection
  rw [h]
  rw [if_pos (by decide)]

/-- Witness for C6 at a concrete arranged section. -/
theorem claim_C6_arranged_witness :
    processSection 0 ⟨"CS4994", "Research", "TBD", "ARR", "TBA", "TBA"⟩ =
      [arrEvent ⟨"CS4994", "Research", "TBD", "ARR", "TBA", "TBA"⟩] :=
  (claim_C6_arranged 0 _ rfl).1

/-- C7: failures are contained to their unit.  The batch result is the
concatenation of per-identifier results, an identifier whose resolver
lookup raises contributes the empty list (the rest are unaffected), a
non-arranged section's output is the independent per-day-letter filter-map
over its day letters, and a day letter of a section either of whose time
strings fails to parse contributes no occurrence. -/
theorem claim_C7_containment :
    (∀ today resolver text, parse_timetable_text today resolver text =
      ((extractCRNs text).map
        (fun crn => processCrn today resolver (String.mk crn))).flatten) ∧
    (∀ today (resolver : Resolver) crn err, resolver crn = Except.error err →
      processCrn today resolver crn = []) ∧
    (∀ today sec, listIsInfix "ARR".toList sec.days.toList = false →
      processSection today sec = sec.days.toList.filterMap (dayEvent today sec)) ∧
    (∀ today sec d,
      parse_time sec.start_time = none ∨ parse_time sec.end_time = none →
      dayEvent today sec d = none) := by
  refine ⟨fun today resolver text => ?_, fun today resolver crn err h => ?_,
    fun today sec h => ?_, fun today sec d h => ?_⟩
  · exact foldl_append_flatten _ (extractCRNs text) []
  · unfold processCrn
    rw [h]
  · unfold processSection
    rw [if_neg (by rw [h]; exact Bool.false_ne_true)]
    have hfm := foldl_appendOpt (dayEvent today sec) sec.days.toList []
    rw [List.nil_append] at hfm
    exact hfm
  · unfold dayEvent
    match day_map d with
    | none => rfl
    | some dname =>
      simp only
      rcases h with h | h
      · rw [h]
      · rw [h]
        match parse_time sec.start_time with
        | none => rfl
        | some st => rfl

/-- Witness for C7: a resolver that raises contributes nothing, and a day
letter of a section with an unparsable start time yields no occurrence. -/
theorem claim_C7_containment_witness :
    processCrn 0 (fun _ => Except.error "network") "12345" = [] ∧
    dayEvent 0 ⟨"CS1114", "Intro", "McBryde 100", "MWF", "garbage", "9:50AM"⟩ 'M' =
      none :=
  ⟨claim_C7_containment.2.1 0 _ "12345" "network" rfl,
   claim_C7_containment.2.2.2 0 _ 'M' (Or.inl (by decide))⟩

/-! ### Recurrence building (`create_google_event`) -/

/-- The reminder block of the event payload. -/
structure Reminders where
  useDefault : Bool
  overrides : List (String × Nat)
deriving DecidableEq

/-- The event payload handed to the calendar insert call (`event_body`). -/
structure EventBody where
  summary : String
  location : String
  startDt : DateTime
  endDt : DateTime
  recurrence : List String
  reminders : Reminders
deriving DecidableEq

/-- The `day_map` dict of `create_google_event` (weekday name to index). -/
def gday_map (s : String) : Option Nat :=
  if s = "Monday" then some 0
  else if s = "Tuesday" then some 1
  else if s = "Wednesday" then some 2
  else if s = "Thursday" then some 3
  else if s = "Friday" then some 4
  else if s = "Saturday" then some 5
  else if s = "Sunday" then some 6
  else none

/-- The `weekday_codes` list of `create_google_event`. -/
def weekday_codes : List String := ["MO", "TU", "WE", "TH", "FR", "SA", "SU"]

/-- Zero-padded two-digit field of `strftime`. -/
def pad2 (n : Nat) : String := if n < 10 then "0" ++ toString n else toString n

/-- `end_of_semester.strftime("%Y%m%dT%H%M%SZ")` for the fixed UTC instant
`datetime(2025, 12, 14, 23, 59, 59, tzinfo=timezone.utc)`. -/
def until_str : String :=
  toString 2025 ++ pad2 12 ++ pad2 14 ++ "T" ++ pad2 23 ++ pad2 59 ++ pad2 59 ++ "Z"

/-- The serialized weekly recurrence rule. -/
def rruleFor (code : String) : String :=
  "RRULE:FREQ=WEEKLY;BYDAY=" ++ code ++ ";UNTIL=" ++ until_str

/-- `create_google_event` (lines 165–227), up to the external insert call:
builds the payload from an event dict.  Missing `subject`/`start_datetime`/
`end_datetime` keys would raise `KeyError`, modelled as `none`.  The pytz
localization attaches a timezone without changing the wall-clock fields, so
datetimes stay plain `DateTime` values; `datetime.now().date()` is the
explicit `today` parameter.  When the event names a day, both datetimes are
moved onto the next occurrence of that weekday counted from `today`
(today itself when the weekdays coincide); the by-day code is read off the
(possibly corrected) start datetime's weekday. -/
def create_google_event (today : Nat) (ev : Event) : Option EventBody :=
  match ev.subject, ev.start_datetime, ev.end_datetime with
  | some subj, some sdt0, some edt0 =>
    let target := ev.day.bind gday_map
    let corrected : DateTime × DateTime :=
      match target with
      | some tw =>
        let days_ahead : Int := ((tw : Int) - ((today % 7 : Nat) : Int)) % 7
        let next_occ := if days_ahead = 0 then today else today + days_ahead.toNat
        (⟨next_occ, sdt0.time⟩, ⟨next_occ, edt0.time⟩)
      | none => (sdt0, edt0)
    let byday_code := weekday_codes.getD (corrected.1.date % 7) ""
    some
      { summary := subj,
        location := ev.location.getD "",
        startDt := corrected.1,
        endDt := corrected.2,
        recurrence := [rruleFor byday_code],
        reminders := { useDefault := false, overrides := [("popup", 15)] } }
  | _, _, _ => none

/-- C4: whenever a payload is built, its single recurrence rule carries the
two-letter code of the weekday of the payload's own (possibly corrected)
start datetime, with Monday ↦ `MO` through Sunday ↦ `SU`. -/
theorem claim_C4_byday (today : Nat) (ev : Event) (body : EventBody)
    (h : create_google_event today ev = some body) :
    body.recurrence = [rruleFor (weekday_codes.getD (body.startDt.date % 7) "")] ∧
    weekday_codes.getD 0 "" = "MO" ∧ weekday_codes.getD 1 "" = "TU" ∧
    weekday_codes.getD 2 "" = "WE" ∧ weekday_codes.getD 3 "" = "TH" ∧
    weekday_codes.getD 4 "" = "FR" ∧ weekday_codes.getD 5 "" = "SA" ∧
    weekday_codes.getD 6 "" = "SU" := by
  refine ⟨?_, rfl, rfl, rfl, rfl, rfl, rfl, rfl⟩
  unfold create_google_event at h
  split at h
  case _ subj sdt0 edt0 hsub hsdt hedt =>
    simp only at h
    cases h
    rfl
  case _ => cases h

/-- C8: every payload built by `create_google_event` carries a weekly
recurrence rule ending at the fixed semester-end UTC instant
`20251214T235959Z`, default reminders disabled, and exactly one reminder
override: a popup 15 minutes before start. -/
theorem claim_C8_payload (today : Nat) (ev : Event) (body : EventBody)
    (h : create_google_event today ev = some body) :
    (∃ code, body.recurrence =
      ["RRULE:FREQ=WEEKLY;BYDAY=" ++ code ++ ";UNTIL=" ++ until_str]) ∧
    until_str = "20251214T235959Z" ∧
    body.reminders.useDefault = false ∧
    body.reminders.overrides = [("popup", 15)] := by
  refine ⟨?_, by decide, ?_, ?_⟩
  · unfold create_google_event at h
    split at h
    case _ subj sdt0 edt0 hsub hsdt hedt =>
      simp only at h
      cases h
      exact ⟨_, rfl⟩
    case _ => cases h
  · unfold create_google_event at h
    split at h
    case _ subj sdt0 edt0 hsub hsdt hedt =>
      simp only at h
      cases h
      rfl
    case _ => cases h
  · unfold create_google_event at h
    split at h
    case _ subj sdt0 edt0 hsub hsdt hedt =>
      simp only at h
      cases h
      rfl
    case _ => cases h

/-- The payload obtained from `evWed` on a Monday (`today = 0`). -/
def bodyWed : EventBody :=
  { summary := "CS1114 Intro", location := "McBryde 100",
    startDt := ⟨2, ⟨9, 0⟩⟩, endDt := ⟨2, ⟨9, 50⟩⟩,
    recurrence := [rruleFor "WE"],
    reminders := { useDefault := false, overrides := [("popup", 15)] } }

/-- Witness for C4: for the concrete Wednesday occurrence the built payload
starts on a Wednesday and its rule carries that weekday's code. -/
theorem claim_C4_byday_witness :
    bodyWed.recurrence =
      [rruleFor (weekday_codes.getD (bodyWed.startDt.date % 7) "")] :=
  (claim_C4_byday 0 evWed bodyWed (by decide)).1

/-- Witness for C8 at the same concrete payload. -/
theorem claim_C8_payload_witness :
    (∃ code, bodyWed.recurrence =
      ["RRULE:FREQ=WEEKLY;BYDAY=" ++ code ++ ";UNTIL=" ++ until_str]) ∧
    bodyWed.reminders.useDefault = false ∧
    bodyWed.reminders.overrides = [("popup", 15)] := by
  obtain ⟨h1, -, h3, h4⟩ := claim_C8_payload 0 evWed bodyWed (by decide)
  exact ⟨h1, h3, h4⟩

/-! ### Batch submission (`create_events_in_calendar`) -/

/-- The result dict of a successful insert (`{"status": ..., "id": ...}`). -/
structure SubmitRes where
  status : String
  id : Option String
deriving DecidableEq

/-- One iteration of the submission loop, with its `try/except`: skip the
event unless both datetimes are present; build the payload (a `KeyError`
becomes `none`); submit it through the injected calendar call; an exception
anywhere yields no result entry and the loop continues. -/
def attemptEvent (submit : EventBody → Except String SubmitRes) (today : Nat)
    (ev : Event) : Option SubmitRes :=
  if ev.start_datetime.isSome ∧ ev.end_datetime.isSome then
    match create_google_event today ev with
    | some body =>
      match submit body with
      | Except.ok r => some r
      | Except.error _ => none
    | none => none
  else none

/-- `/create-events` (lines 266–302): deduplicate, attempt each unique
event independently, and report `Created N ...` with `N` the number of
collected successes. -/
def create_events_in_calendar (submit : EventBody → Except String SubmitRes)
    (today : Nat) (events : List Event) : List SubmitRes × String :=
  let results := (dedup events).foldl
    (fun acc ev => appendOpt acc (attemptEvent submit today ev)) []
  (results,
    "Created " ++ toString results.length ++ " recurring events in Google Calendar.")

theorem create_events_results (submit : EventBody → Except String SubmitRes)
    (today : Nat) (events : List Event) :
    (create_events_in_calendar submit today events).1 =
      (dedup events).filterMap (attemptEvent submit today) := by
  show (dedup events).foldl _ [] = _
  have h := foldl_appendOpt (attemptEvent submit today) (dedup events) []
  rw [List.nil_append] at h
  exact h

/-- C9: the batch submitter collects each deduplicated event's outcome
independently — the result list is exactly the per-item filter-map over the
deduplicated input, so one item's failure (a `none` outcome) cannot abort
or roll back the others — and the returned message is `"Created N
recurring events..."` where `N` is the number of successful submissions
after deduplication. -/
theorem claim_C9_batch (submit : EventBody → Except String SubmitRes)
    (today : Nat) (events : List Event) :
    (create_events_in_calendar submit today events).1 =
      (dedup events).filterMap (attemptEvent submit today) ∧
    (create_events_in_calendar submit today events).2 =
      "Created " ++ toString (create_events_in_calendar submit today events).1.length
        ++ " recurring events in Google Calendar." ∧
    (create_events_in_calendar submit today events).1.length =
      ((dedup events).filter
        (fun ev => (attemptEvent submit today ev).isSome)).length := by
  refine ⟨create_events_results submit today events, rfl, ?_⟩
  rw [create_events_results submit today events]
  rw [List.length_filterMap_eq_countP, List.countP_eq_length_filter]

theorem filterMap_eq_filterMap_filter {α β : Type} (g : α → Option β)
    (p : α → Bool) (h : ∀ x, p x = false → g x = none) :
    ∀ l : List α, l.filterMap g = (l.filter p).filterMap g := by
  intro l
  induction l with
  | nil => rfl
  | cons x t ih =>
    cases hp : p x
    · rw [List.filterMap_cons, h x hp, List.filter_cons, hp]
      simpa using ih
    · rw [List.filterMap_cons, List.filter_cons, hp]
      simp only [if_pos trivial, List.filterMap_cons]
      rw [ih]

/-- C10: an event lacking a start or end datetime (in particular a
degenerate arranged occurrence) is silently skipped by the batch submitter
for any injected calendar call — no submission outcome is produced for it —
and the collected results are exactly those of the events that do carry
both datetimes, so skipped events add no entry and do not count towards N. -/
theorem claim_C10_skip (submit : EventBody → Except String SubmitRes)
    (today : Nat) (events : List Event) :
    (∀ (sb : EventBody → Except String SubmitRes) (ev : Event),
      ev.start_datetime = none ∨ ev.end_datetime = none →
        attemptEvent sb today ev = none) ∧
    (create_events_in_calendar submit today events).1 =
      ((dedup events).filter
        (fun ev => ev.start_datetime.isSome && ev.end_datetime.isSome)).filterMap
        (attemptEvent submit today) := by
  have hskip : ∀ (sb : EventBody → Except String SubmitRes) (ev : Event),
      ev.start_datetime = none ∨ ev.end_datetime = none →
        attemptEvent sb today ev = none := by
    intro sb ev hev
    unfold attemptEvent
    rw [if_neg]
    rintro ⟨h1, h2⟩
    rcases hev with hev | hev
    · rw [hev] at h1
      cases h1
    · rw [hev] at h2
      cases h2
  refine ⟨hskip, ?_⟩
  rw [create_events_results submit today events]
  apply filterMap_eq_filterMap_filter
  intro x hx
  apply hskip
  rcases h1 : x.start_datetime with - | v
  · exact Or.inl rfl
  · rcases h2 : x.end_datetime with - | w
    · exact Or.inr rfl
    · rw [h1, h2] at hx
      simp at hx

/-- Witness for C10: a concrete degenerate arranged occurrence is skipped
even by an always-succeeding calendar call. -/
theorem claim_C10_skip_witness :
    attemptEvent (fun _ => Except.ok ⟨"success", some "id1"⟩) 0
      (arrEvent ⟨"CS4994", "Research", "TBD", "ARR", "TBA", "TBA"⟩) = none :=
  (claim_C10_skip (fun _ => Except.ok ⟨"success", some "id1"⟩) 0 []).1
    (fun _ => Except.ok ⟨"success", some "id1"⟩) _ (Or.inl rfl)

example : parse_time "9:00AM" = some ⟨9, 0⟩ := by decide
example : parse_time "9:00 AM" = some ⟨9, 0⟩ := by decide
example : parse_time "14:30" = some ⟨14, 30⟩ := by decide
example : parse_time "garbage" = none := by decide
example : parse_time "12:30am" = some ⟨0, 30⟩ := by decide
example : parse_time "12:30PM" = some ⟨12, 30⟩ := by decide
example : parse_time "9:5" = some ⟨9, 5⟩ := by decide
example : parse_time "25:00" = none := by decide
example : parse_time "9:61" = none := by decide
example : parse_time "" = none := by decide
example : parse_time "9:30" = some ⟨9, 30⟩ := by decide
example : parse_time "09:30AM" = some ⟨9, 30⟩ := by decide

end VTCal
